import Mathlib

/-!
# Verification of the LTD tributary-area pipeline

Shallow embedding of the algorithmic core of the LTD repository:

* `src/LTD_summary.py` — floor ordering (`floor_sort_key`), cross-floor
  column grouping (`group_columns_by_alignment`) and report-row load cells;
* `src/vornoi5.py` — zone-weight assignment, the weighted Voronoi engine
  (`compute_weighted_voronoi`); the scipy Voronoi diagram together with the
  finite-polygon reconstruction (`voronoi_finite_polygons_2d`) is modelled as
  the exact mathematical Voronoi partition of the plane, per its documented
  guarantee that extended cells fully cover any later clip region;
* `src/LTD_floor4.py` — largest-polygon selection of the boundary
  reconstructor.

JSON/float numerics are modelled by exact rationals `ℚ`; shapely polygons and
their `area`/`intersection` by sets in the Euclidean plane and Lebesgue
measure.
-/

namespace LTD

/-! ## Floor ordering (`LTD_summary.py`, `floor_sort_key`, line 12–22) -/

/-- Digit-string accumulator for Python's `int(...)` literal syntax: a run of
decimal digits in which a single underscore may stand between two digits
(Python 3.6 grouping). `acc` is the value of digits already consumed. -/
def pyDigitsAux : List Char → Nat → Option Nat
  | [], acc => some acc
  | '_' :: c :: rest, acc =>
      if c.isDigit then pyDigitsAux rest (acc * 10 + (c.toNat - 48)) else none
  | ['_'], _ => none
  | c :: rest, acc =>
      if c.isDigit then pyDigitsAux rest (acc * 10 + (c.toNat - 48)) else none

/-- Nonempty digit run (with Python underscore grouping); no leading underscore. -/
def pyDigits? : List Char → Option Nat
  | [] => none
  | c :: rest => if c.isDigit then pyDigitsAux rest (c.toNat - 48) else none

/-- Python `str.strip()` on a character list: drop whitespace from both ends
(character-level model of the string primitives, which keeps everything
kernel-computable). -/
def pyStrip (cs : List Char) : List Char :=
  ((cs.dropWhile Char.isWhitespace).reverse.dropWhile Char.isWhitespace).reverse

/-- Python `int(level)` as used in `floor_sort_key`: surrounding whitespace is
stripped, an optional sign precedes a nonempty digit run; any other string
raises (modelled as `none`, caught by the bare `except` in the source). -/
def pyInt? (s : String) : Option Int :=
  match pyStrip s.toList with
  | '+' :: rest => (pyDigits? rest).map (fun n => (n : Int))
  | '-' :: rest => (pyDigits? rest).map (fun n => -(n : Int))
  | cs => (pyDigits? cs).map (fun n => (n : Int))

/-- Python `level.upper().startswith(ab)` for a two-character ASCII needle
`ab`: the first two characters, uppercased, are `a` then `b`. -/
def upperStartsWith2 (s : String) (a b : Char) : Bool :=
  match s.toList with
  | c :: d :: _ => c.toUpper = a && d.toUpper = b
  | _ => false

/-- `floor_sort_key` from `LTD_summary.py` lines 12–20: `"RF"`-prefixed labels
(case-insensitive) map to 999, `"LB"`-prefixed to -1, integer-parseable labels
to their value, everything else to 0. -/
def floor_sort_key (level : String) : Int :=
  if upperStartsWith2 level 'R' 'F' then 999
  else if upperStartsWith2 level 'L' 'B' then -1
  else match pyInt? level with
       | some n => n
       | none => 0

/-- `sorted(data.keys(), key=floor_sort_key, reverse=True)` (line 22): stable
descending sort of the floor labels by `floor_sort_key` (Python's `sorted` is
stable also under `reverse=True`; any stable sort realizes it, here insertion
sort). -/
def orderedFloorKeys (keys : List String) : List String :=
  List.insertionSort (fun a b => floor_sort_key b ≤ floor_sort_key a) keys

/-! ## Cross-floor grouping (`LTD_summary.py`, `group_columns_by_alignment`) -/

/-- One entry of a floor's `"columns"` list in the Voronoi results JSON:
fields `X`, `Y`, `Area`, `WeightedArea`, `Type` (lines 27–33). -/
structure VEntry where
  x : ℚ
  y : ℚ
  area : ℚ
  warea : ℚ
  ctype : String
deriving DecidableEq

/-- A `(floor, x, y, area, w_area, ctype)` tuple stored in a group's
`"points"` list (lines 55 and 59). -/
structure GPoint where
  floor : String
  x : ℚ
  y : ℚ
  area : ℚ
  warea : ℚ
  ctype : String
deriving DecidableEq

/-- A column group: numeric id (the source formats it as `f"C{id:03d}"`) and
the ordered `"points"` list. -/
structure CGroup where
  gid : Nat
  points : List GPoint
deriving DecidableEq

/-- Squared Euclidean distance between two plane points.  The source compares
`math.dist((x, y), (last_x, last_y)) <= match_radius` (line 50); for a
nonnegative radius this is equivalent to `sqDist ≤ radius²`, which keeps the
test decidable over `ℚ`. -/
def sqDist (a b : ℚ × ℚ) : ℚ :=
  (a.1 - b.1) ^ 2 + (a.2 - b.2) ^ 2

/-- `group["points"][-1]`'s coordinates (line 49).  Groups are always created
nonempty, so the `[]` branch is dead code kept only for totality. -/
def lastPos (g : CGroup) : ℚ × ℚ :=
  match g.points.getLast? with
  | some p => (p.x, p.y)
  | none => (0, 0)

/-- Package a floor's entry as the tuple appended to a group. -/
def mkGPoint (fl : String) (c : VEntry) : GPoint :=
  ⟨fl, c.x, c.y, c.area, c.warea, c.ctype⟩

/-- The `for group in column_groups: ... break` loop (lines 48–52) followed by
the append (line 55): append the entry to the first group whose last recorded
position is within the match radius, returning `none` when no group matches. -/
def tryAppend (r : ℚ) (fl : String) (c : VEntry) : List CGroup → Option (List CGroup)
  | [] => none
  | g :: gs =>
      if sqDist (c.x, c.y) (lastPos g) ≤ r ^ 2 then
        some ({ g with points := g.points ++ [mkGPoint fl c] } :: gs)
      else
        (tryAppend r fl c gs).map (fun gs' => g :: gs')

/-- Process one entry (lines 44–61): state is the group list and the next
`column_id`; an unmatched entry seeds a fresh group at the end of the list. -/
def stepPoint (r : ℚ) (fl : String) (st : List CGroup × Nat) (c : VEntry) :
    List CGroup × Nat :=
  match tryAppend r fl c st.1 with
  | some gs => (gs, st.2)
  | none => (st.1 ++ [⟨st.2, [mkGPoint fl c]⟩], st.2 + 1)

/-- Process one floor's entries in original order (line 44). -/
def stepFloor (r : ℚ) (st : List CGroup × Nat) (fe : String × List VEntry) :
    List CGroup × Nat :=
  fe.2.foldl (stepPoint r fe.1) st

/-- The grouping loop over an already-ordered floor list (`column_id` starts
at 1, line 40). -/
def groupCore (r : ℚ) (floors : List (String × List VEntry)) : List CGroup :=
  (floors.foldl (stepFloor r) ([], 1)).1

/-- Stable descending sort of the `(floor label, entries)` input by
`floor_sort_key` of the label, modelling lines 22–37 where the JSON mapping is
traversed in the sorted key order. -/
def orderFloorsData (floors : List (String × List VEntry)) :
    List (String × List VEntry) :=
  List.insertionSort (fun a b => floor_sort_key b.1 ≤ floor_sort_key a.1) floors

/-- `group_columns_by_alignment` (grouping part, lines 12–61): sort the floors
topmost-first, then fold every floor's `"columns"` entries into groups.  The
input models the parsed JSON as an association list in insertion order; the
trailing report-building part of the Python function is modelled separately
(`rowLoadCells`). -/
def group_columns_by_alignment (r : ℚ) (floors : List (String × List VEntry)) :
    List CGroup :=
  groupCore r (orderFloorsData floors)

/-! ### Specification-side restatement of the grouping step (for claim C3)

These definitions follow the spec's words ("appended to the first open
ColumnGroup (in group-creation order) whose last recorded position lies within
the match radius; otherwise a new group seeded at this point"), to be compared
with the source-derived `stepPoint`. -/

/-- Append the entry to the group at position `k` (spec-side helper). -/
def appendAtIdx (fl : String) (c : VEntry) : List CGroup → Nat → List CGroup
  | [], _ => []
  | g :: gs, 0 => { g with points := g.points ++ [mkGPoint fl c] } :: gs
  | g :: gs, k + 1 => g :: appendAtIdx fl c gs k

/-- Spec-side step: locate the first group (in list = creation order) whose
last position is within the radius with `findIdx?`, append there, else seed a
new group. -/
def specStep (r : ℚ) (fl : String) (st : List CGroup × Nat) (c : VEntry) :
    List CGroup × Nat :=
  match st.1.findIdx? (fun g => decide (sqDist (c.x, c.y) (lastPos g) ≤ r ^ 2)) with
  | some k => (appendAtIdx fl c st.1 k, st.2)
  | none => (st.1 ++ [⟨st.2, [mkGPoint fl c]⟩], st.2 + 1)

/-! ## Report-row load cells (`LTD_summary.py` lines 79–104) -/

/-- Round-half-to-even to the nearest integer, the rounding mode of Python's
built-in `round` (float binary artifacts are idealized away by working in `ℚ`). -/
def roundHalfEven (q : ℚ) : Int :=
  if q - ⌊q⌋ < 1 / 2 then ⌊q⌋
  else if 1 / 2 < q - ⌊q⌋ then ⌊q⌋ + 1
  else if ⌊q⌋ % 2 = 0 then ⌊q⌋ else ⌊q⌋ + 1

/-- Python `round(v, 2)`. -/
def pyRound2 (q : ℚ) : ℚ :=
  (roundHalfEven (q * 100) : ℚ) / 100

/-- `round(w, 2) if w else None` (lines 99–100): Python truthiness sends both
`None` and `0.0` to the `None` branch. -/
def emitLoad : Option ℚ → Option ℚ
  | none => none
  | some v => if v = 0 then none else some (pyRound2 v)

/-- The pair of load cells of one report row (lines 80–81 and 99–100):
`w1 = pair[0] if len(pair) > 0 else None`, `w2 = pair[1] if len(pair) > 1 else
None`, each emitted through the truthiness filter. -/
def rowLoadCells (pair : List ℚ) : Option ℚ × Option ℚ :=
  (emitLoad pair.head?, emitLoad pair[1]?)

/-! ## Zone weights (`vornoi5.py` lines 145–155) -/

/-- One record of the loading JSON: `Vertices` and optional `UnitLoad`. -/
structure RawZone where
  vertices : List (ℚ × ℚ)
  unitLoad : Option ℚ
deriving DecidableEq

/-- Lines 149–151: an explicit `UnitLoad` is used as-is; a missing one
defaults to `1.0` for the `"Permanent Loading"` pass and `0.8` otherwise. -/
def zoneWeight (unitLoad : Option ℚ) (load_type : String) : ℚ :=
  match unitLoad with
  | some u => u
  | none => if load_type = "Permanent Loading" then 1 else 4 / 5

/-- Lines 145–155: zones with at least 3 vertices become weighted zones with
`zoneWeight`; the rest are dropped. -/
def buildWeightedZones (zones : List RawZone) (load_type : String) :
    List (List (ℚ × ℚ) × ℚ) :=
  zones.filterMap (fun z =>
    if 3 ≤ z.vertices.length then some (z.vertices, zoneWeight z.unitLoad load_type)
    else none)

/-! ## Largest-polygon selection (`LTD_floor4.py` lines 98–114) -/

/-- A merged polygon part, abstracted to its area and an identifying tag. -/
structure PolyM where
  area : ℚ
  tag : String
deriving DecidableEq

/-- Modelled from the spec: shapely `unary_union` applied to pairwise-disjoint
polygons returns a `MultiPolygon` whose parts are exactly the inputs (the
union merges only touching/overlapping shapes, §4.1); for disjoint inputs the
part list is the input list.  `unary_union` itself lives in shapely, outside
`src/`. -/
def unionPartsOfDisjoint (ps : List PolyM) : List PolyM := ps

/-- Python `max(merged_polys, key=lambda p: p.area)` (line 111): scan left to
right keeping the current maximum, replacing it only on a strictly larger
area — ties keep the earlier element. -/
def pyMaxByArea : List PolyM → Option PolyM
  | [] => none
  | p :: ps => some (ps.foldl (fun best q => if best.area < q.area then q else best) p)

/-- Lines 98–114 for disjoint parts: the single polygon kept as the group's
outline (`none` when there are no polygons, in which case the group is
skipped). -/
def mainOutline (ps : List PolyM) : Option PolyM :=
  pyMaxByArea (unionPartsOfDisjoint ps)

/-! ## Weighted Voronoi engine (`vornoi5.py`, lines 26–96)

`voronoi_finite_polygons_2d` (lines 26–66, first-party code) is embedded
line by line below over a `VorDiagram` record mirroring the scipy `Voronoi`
result object (`points`, `vertices`, `ridge_points`, `ridge_vertices`,
`regions`, `point_region`).  The scipy constructor itself (`Voronoi(points)`,
line 74) is third-party code absent from `src/` and enters the embedding as a
parameter `voronoiOf : List V2 → VorDiagram`; in the source it is invoked
only after the fewer-than-3-sites guard.  shapely `Polygon` of a vertex ring
in convex position (the reconstruction sorts each cell's vertices by angle
around their centroid exactly so that the ring is convex) is the convex hull
of its vertices, `intersection` is set intersection and `.area` is Lebesgue
measure.  numpy float arithmetic is idealized as exact real arithmetic. -/

/-- The Euclidean plane, the ambient space of all floor geometry. -/
abbrev Pt : Type := EuclideanSpace ℝ (Fin 2)

/-- A plane point from coordinates. -/
def pt (x y : ℝ) : Pt := ![x, y]

/-- A 2D coordinate pair, as stored in the numpy arrays of the diagram. -/
abbrev V2 : Type := ℝ × ℝ

/-- The scipy `Voronoi` result object, as consumed by
`voronoi_finite_polygons_2d`: sites, Voronoi vertices, one `(p1, p2)` site
pair and one `(v1, v2)` vertex pair per ridge (−1 marking the open end of an
infinite ridge), the vertex-index list of every region, and the map from site
index to region index. -/
structure VorDiagram where
  points : List V2
  vertices : List V2
  ridge_points : List (ℕ × ℕ)
  ridge_vertices : List (ℤ × ℤ)
  regions : List (List ℤ)
  point_region : List ℕ

/-- Componentwise mean of a coordinate list (`np.mean(..., axis=0)`); the
empty list gives `(0, 0)` where numpy would warn and give NaN. -/
noncomputable def v2mean (l : List V2) : V2 :=
  ((l.map Prod.fst).sum / l.length, (l.map Prod.snd).sum / l.length)

/-- `np.arctan2(y, x)`, the angle of `(x, y)` in `(−π, π]`. -/
noncomputable def arctan2 (y x : ℝ) : ℝ :=
  Complex.arg ⟨x, y⟩

/-- Line 32: `center = vor.points.mean(axis=0)`. -/
noncomputable def vfCenter (vor : VorDiagram) : V2 :=
  v2mean vor.points

/-- Line 34: the default radius `np.ptp(vor.points, axis=0).max() * 2` —
twice the larger coordinate span of the site set (the caller at line 75
never passes an explicit radius).  numpy errors on an empty array; the
embedding returns 0 there. -/
noncomputable def vfRadius (vor : VorDiagram) : ℝ :=
  (max
    ((vor.points.map Prod.fst).foldl max ((vor.points.getD 0 (0, 0)).1)
      - (vor.points.map Prod.fst).foldl min ((vor.points.getD 0 (0, 0)).1))
    ((vor.points.map Prod.snd).foldl max ((vor.points.getD 0 (0, 0)).2)
      - (vor.points.map Prod.snd).foldl min ((vor.points.getD 0 (0, 0)).2))) * 2

/-- Lines 35–38: the `all_ridges` map.  For a site `p`, its entries are the
`(other site, v1, v2)` triples of every ridge touching `p`, in ridge order —
exactly the insertion order of the Python dict-of-lists. -/
def ridgesOf (vor : VorDiagram) (p : ℕ) : List (ℕ × ℤ × ℤ) :=
  (vor.ridge_points.zip vor.ridge_vertices).filterMap (fun x =>
    if x.1.1 = p then some (x.1.2, x.2.1, x.2.2)
    else if x.1.2 = p then some (x.1.1, x.2.1, x.2.2) else none)

/-- Lines 51–56: the synthesized far endpoint of one open ridge.  `t` is the
normalized site-to-site direction (division by a zero norm gives 0 in ℝ
where numpy gives NaN — only reachable from duplicate sites), `n` its normal,
and the far point extends the ridge's finite vertex (`vor.vertices[v2]`)
away from the site-cloud center by `radius`.  `np.sign` is `Real.sign`. -/
noncomputable def vfFarPoint (vor : VorDiagram) (center : V2) (radius : ℝ)
    (p1 p2 : ℕ) (v2 : ℤ) : V2 :=
  let pp1 := vor.points.getD p1 (0, 0)
  let pp2 := vor.points.getD p2 (0, 0)
  let nrm := Real.sqrt ((pp2.1 - pp1.1) ^ 2 + (pp2.2 - pp1.2) ^ 2)
  let t : V2 := ((pp2.1 - pp1.1) / nrm, (pp2.2 - pp1.2) / nrm)
  let n : V2 := (-t.2, t.1)
  let midpoint : V2 := ((pp1.1 + pp2.1) / 2, (pp1.2 + pp2.2) / 2)
  let s := Real.sign ((midpoint.1 - center.1) * n.1 + (midpoint.2 - center.2) * n.2)
  let vsrc := vor.vertices.getD v2.toNat (0, 0)
  (vsrc.1 + s * n.1 * radius, vsrc.2 + s * n.2 * radius)

/-- Lines 46–58, one iteration of the ridge loop: swap so `v2` is the finite
end, skip fully finite ridges, otherwise append the far point to the shared
vertex list and its index (`len(new_vertices) - 1` after the append) to the
region under reconstruction.  (`v2 ≥ 0` after the swap on every real scipy
output; the `Int.toNat` lookup in `vfFarPoint` covers the impossible rest.) -/
noncomputable def vfRidgeStep (vor : VorDiagram) (center : V2) (radius : ℝ)
    (p1 : ℕ) (st : List ℕ × List V2) (r : ℕ × ℤ × ℤ) : List ℕ × List V2 :=
  let w1 := if r.2.2 < 0 then r.2.2 else r.2.1
  let w2 := if r.2.2 < 0 then r.2.1 else r.2.2
  if 0 ≤ w1 then st
  else
    (st.1 ++ [(st.2 ++ [vfFarPoint vor center radius p1 r.1 w2]).length - 1],
     st.2 ++ [vfFarPoint vor center radius p1 r.1 w2])

/-- Lines 61–64: sort a reconstructed region's vertex indices by the angle of
each vertex around the region's centroid (`np.argsort` is a stable ascending
sort). -/
noncomputable def vfAngle (nvs : List V2) (new_region : List ℕ) (v : ℕ) : ℝ :=
  let c := v2mean (new_region.map (fun w => nvs.getD w (0, 0)))
  arctan2 ((nvs.getD v (0, 0)).2 - c.2) ((nvs.getD v (0, 0)).1 - c.1)

open Classical in
/-- Lines 39–65, one iteration of the region loop: a region that is empty or
all-finite is appended unchanged; otherwise its finite vertices are kept, a
far point is synthesized per open ridge (the shared vertex list grows even
when the region is later dropped), regions left with fewer than 3 vertices
are dropped, and surviving regions are angularly sorted.  State: the
`(new_regions, new_vertices)` pair. -/
noncomputable def vfStep (vor : VorDiagram) (center : V2) (radius : ℝ)
    (st : List (List ℕ) × List V2) (p1 : ℕ) (region_idx : ℕ) :
    List (List ℕ) × List V2 :=
  let vertices := vor.regions.getD region_idx []
  if vertices = [] ∨ ∀ v ∈ vertices, 0 ≤ v then
    (st.1 ++ [vertices.map Int.toNat], st.2)
  else
    let res := (ridgesOf vor p1).foldl (vfRidgeStep vor center radius p1)
      ((vertices.filter (fun v => 0 ≤ v)).map Int.toNat, st.2)
    if res.1.length < 3 then (st.1, res.2)
    else
      (st.1 ++ [List.insertionSort
          (fun a b => vfAngle res.2 res.1 a ≤ vfAngle res.2 res.1 b) res.1],
       res.2)

/-- `voronoi_finite_polygons_2d` (lines 26–66): reconstruct every region of
the diagram into a finite vertex-index list over the extended vertex array,
iterating `enumerate(vor.point_region)`. -/
noncomputable def voronoi_finite_polygons_2d (vor : VorDiagram) :
    List (List ℕ) × List V2 :=
  vor.point_region.enum.foldl
    (fun st pr => vfStep vor (vfCenter vor) (vfRadius vor) st pr.1 pr.2)
    ([], vor.vertices)

/-- shapely `Polygon(ring)` for a ring in convex position (as produced by the
angular sort of 4.2): the convex hull of the ring's vertices, as a region of
the plane. -/
noncomputable def polygonSet (ring : List V2) : Set Pt :=
  convexHull ℝ {p : Pt | ∃ v ∈ ring, p = pt v.1 v.2}

/-- A weighted load zone handed to the engine (lines 152–155): polygon region
and unit-load weight. -/
structure ZoneM where
  region : Set Pt
  weight : ℝ

/-- Lines 84–88: `weighted_sum += inter.area * zone["weight"]` over all zones
(the `is_empty` guard only skips adding an exact 0). -/
noncomputable def weightedArea (cell : Set Pt) (zones : List ZoneM) : ℝ :=
  (zones.map (fun z => (MeasureTheory.volume (cell ∩ z.region)).toReal * z.weight)).sum

/-- One record of the `results` list (lines 89–95): keys `index`, `point`,
`area_raw`, `area_weighted`, `polygon` (the clipped cell region itself). -/
structure CellResult where
  idx : ℕ
  site : V2
  area_raw : ℝ
  area_weighted : ℝ
  polygon : Set Pt

open Classical in
/-- Lines 75–95: run the finite-polygon reconstruction, then for each
`(i, region)` of `enumerate(regions)` skip empty regions and regions with an
out-of-range vertex index, clip the region's polygon against the floor
boundary, skip empty clips, and record the clipped (raw) area, the
zone-weighted area and the `i`-th input point. -/
noncomputable def cwvCells (vor : VorDiagram) (boundary : Set Pt)
    (interior_points : List V2) (weighted_zones : List ZoneM) : List CellResult :=
  (voronoi_finite_polygons_2d vor).1.enum.filterMap (fun ir =>
    if ir.2 = [] ∨ ∃ v ∈ ir.2, (voronoi_finite_polygons_2d vor).2.length ≤ v then
      none
    else if polygonSet (ir.2.map (fun v =>
        (voronoi_finite_polygons_2d vor).2.getD v (0, 0))) ∩ boundary = ∅ then
      none
    else some ⟨ir.1, interior_points.getD ir.1 (0, 0),
      (MeasureTheory.volume (polygonSet (ir.2.map (fun v =>
          (voronoi_finite_polygons_2d vor).2.getD v (0, 0))) ∩ boundary)).toReal,
      weightedArea (polygonSet (ir.2.map (fun v =>
          (voronoi_finite_polygons_2d vor).2.getD v (0, 0))) ∩ boundary)
        weighted_zones,
      polygonSet (ir.2.map (fun v =>
          (voronoi_finite_polygons_2d vor).2.getD v (0, 0))) ∩ boundary⟩)

/-- `compute_weighted_voronoi` (lines 68–96): fewer than 3 interior points
yield no cells — before the Voronoi constructor (`Voronoi(points)`, line 74,
supplied here as the parameter `voronoiOf` since scipy is outside `src/`) is
ever invoked; otherwise the reconstruction-and-clipping pipeline `cwvCells`
runs on the diagram of the interior points.  The Python function also returns
the boundary polygon unchanged; only the cell list is modelled. -/
noncomputable def compute_weighted_voronoi (voronoiOf : List V2 → VorDiagram)
    (boundary : Set Pt) (interior_points : List V2)
    (weighted_zones : List ZoneM) : List CellResult :=
  if interior_points.length < 3 then []
  else cwvCells (voronoiOf interior_points) boundary interior_points weighted_zones

/-- The boundary polygon of the C6 scenario, the unit square
`[(0,0),(1,0),(1,1),(0,1)]` as a region of the plane. -/
def unitSquare : Set Pt :=
  {p | 0 ≤ p 0 ∧ p 0 ≤ 1 ∧ 0 ≤ p 1 ∧ p 1 ≤ 1}

/-- The empty diagram: what the `voronoiOf` parameter may return for inputs
on which scipy itself would raise (fewer than 3 sites) — the source never
consults it there, since the guard returns first. -/
def vorEmpty : VorDiagram :=
  ⟨[], [], [], [], [], []⟩

/-- Modelled from the spec (§4.2, "compute the standard Voronoi diagram of
the sites"; `scipy.spatial.Voronoi` is third-party code absent from `src/`):
the Voronoi diagram of the three sites (0,0), (2,0), (0,2).  Its content is
mathematically forced: the single Voronoi vertex is the circumcenter (1,1),
and each pair of sites shares one infinite ridge with (1,1) as its only
finite end, so every region is `[-1, 0]`.  Index orderings are representation
choices of scipy; the theorems below use only the sites, the vertex list and
the length of `point_region`, none of which depend on them. -/
def vor3 : VorDiagram where
  points := [(0, 0), (2, 0), (0, 2)]
  vertices := [(1, 1)]
  ridge_points := [(0, 1), (0, 2), (1, 2)]
  ridge_vertices := [(-1, 0), (-1, 0), (-1, 0)]
  regions := [[-1, 0], [-1, 0], [-1, 0]]
  point_region := [0, 1, 2]

/-- The 200 m × 200 m square floor boundary of the C2 counterexample, as its
corner ring.  Its sites (`vor3.points`) span only 2 m, so the synthesized
extension radius is 4 m and the reconstructed cells cannot reach most of this
boundary. -/
def bigSquare : List V2 :=
  [(-100, -100), (100, -100), (100, 100), (-100, 100)]

/-! ## Role-relabelling helpers (used to express role-blindness of grouping) -/

/-- Relabel the role tag of one voronoi-results entry. -/
def mapCtypeEntry (f : String → String) (c : VEntry) : VEntry :=
  { c with ctype := f c.ctype }

/-- Relabel the role tags of every entry of every floor. -/
def mapCtypeFloors (f : String → String) (floors : List (String × List VEntry)) :
    List (String × List VEntry) :=
  floors.map (fun fe => (fe.1, fe.2.map (mapCtypeEntry f)))

/-- Relabel the role tags inside a column group. -/
def mapCtypeGroup (f : String → String) (g : CGroup) : CGroup :=
  { g with points := g.points.map (fun p => { p with ctype := f p.ctype }) }

/-! ## Helper lemmas -/

lemma pt_eq_iff (x y x' y' : ℝ) : pt x y = pt x' y' ↔ x = x' ∧ y = y' := by
  constructor
  · intro h
    have h0 : (pt x y) 0 = (pt x' y') 0 := congrFun h 0
    have h1 : (pt x y) 1 = (pt x' y') 1 := congrFun h 1
    simp [pt] at h0 h1
    exact ⟨h0, h1⟩
  · rintro ⟨rfl, rfl⟩; rfl

lemma pyMax_fold_mem : ∀ (ps : List PolyM) (p : PolyM),
    ps.foldl (fun best q => if best.area < q.area then q else best) p = p
      ∨ ps.foldl (fun best q => if best.area < q.area then q else best) p ∈ ps
  | [], _ => Or.inl rfl
  | q :: ps, p => by
    rcases pyMax_fold_mem ps (if p.area < q.area then q else p) with h | h
    · rw [List.foldl_cons, h]
      by_cases hpq : p.area < q.area
      · rw [if_pos hpq]; exact Or.inr (List.mem_cons_self _ _)
      · rw [if_neg hpq]; exact Or.inl rfl
    · exact Or.inr (List.mem_cons_of_mem _ h)

lemma pyMax_fold_le : ∀ (ps : List PolyM) (p : PolyM),
    p.area ≤ (ps.foldl (fun best q => if best.area < q.area then q else best) p).area
      ∧ ∀ q ∈ ps, q.area ≤ (ps.foldl (fun best q => if best.area < q.area then q else best) p).area
  | [], p => ⟨le_refl _, by simp⟩
  | q :: ps, p => by
    obtain ⟨ih1, ih2⟩ := pyMax_fold_le ps (if p.area < q.area then q else p)
    rw [List.foldl_cons]
    constructor
    · refine le_trans ?_ ih1
      by_cases hpq : p.area < q.area
      · rw [if_pos hpq]; exact le_of_lt hpq
      · rw [if_neg hpq]
    · intro x hx
      rcases List.mem_cons.mp hx with rfl | hx
      · refine le_trans ?_ ih1
        by_cases hpq : p.area < x.area
        · rw [if_pos hpq]
        · rw [if_neg hpq]; exact le_of_not_lt hpq
      · exact ih2 x hx

lemma not_RF_of_LB (t : String) (h : upperStartsWith2 t 'L' 'B' = true) :
    upperStartsWith2 t 'R' 'F' = false := by
  unfold upperStartsWith2 at h ⊢
  cases ht : t.toList with
  | nil => rw [ht] at h
  | cons c rest =>
    cases rest with
    | nil => rw [ht] at h
    | cons d rest' =>
      rw [ht] at h
      simp only [Bool.and_eq_true, decide_eq_true_eq] at h
      simp only [Bool.and_eq_false_iff, decide_eq_false_iff_not]
      left
      rw [h.1]
      decide

/-! ## Claim C4 — floor processing order -/

/-- C4 (counterexample): the claim says an `"RF"`-prefixed label sorts highest,
but `floor_sort_key` maps `"RF"` to 999 while the numeric label `"1000"` maps
to 1000, so `"1000"` — not `"RF"`-prefixed — is processed first (topmost). -/
theorem floor_order_RF_not_highest :
    orderedFloorKeys ["RF", "1000"] = ["1000", "RF"]
    ∧ upperStartsWith2 "1000" 'R' 'F' = false := by
  constructor
  · decide
  · decide

/-- C4 (amended): floors are processed in stable descending order of
`floor_sort_key`, where an `"RF"`-prefixed label keys to 999, an
`"LB"`-prefixed one to -1, an integer-parseable one to its value and any other
to 0.  Hence `"RF"` sorts above every `"LB"`-prefixed label and above every
non-`"RF"` label of key below 999, and `"LB"` sorts below every non-`"LB"`
label of key above -1 — but not above numeric labels valued 999 or more
(respectively not below numeric labels -1 or less). -/
theorem floor_order_descending_key :
    (∀ keys : List String,
        (orderedFloorKeys keys).Pairwise (fun a b => floor_sort_key b ≤ floor_sort_key a)
        ∧ (orderedFloorKeys keys).Perm keys)
    ∧ (∀ s t : String, upperStartsWith2 s 'R' 'F' = true →
        upperStartsWith2 t 'L' 'B' = true → floor_sort_key t < floor_sort_key s)
    ∧ (∀ s t : String, upperStartsWith2 s 'R' 'F' = true →
        upperStartsWith2 t 'R' 'F' = false → (pyInt? t).getD 0 < 999 →
        floor_sort_key t < floor_sort_key s)
    ∧ (∀ s t : String, upperStartsWith2 s 'L' 'B' = true →
        upperStartsWith2 t 'L' 'B' = false → upperStartsWith2 t 'R' 'F' = false →
        -1 < (pyInt? t).getD 0 → floor_sort_key s < floor_sort_key t) := by
  refine ⟨fun keys => ⟨?_, ?_⟩, ?_, ?_, ?_⟩
  · letI : IsTotal String (fun a b => floor_sort_key b ≤ floor_sort_key a) :=
      ⟨fun a b => le_total _ _⟩
    letI : IsTrans String (fun a b => floor_sort_key b ≤ floor_sort_key a) :=
      ⟨fun _ _ _ h1 h2 => le_trans h2 h1⟩
    exact List.sorted_insertionSort _ keys
  · exact List.perm_insertionSort _ keys
  · intro s t hs ht
    have htrf := not_RF_of_LB t ht
    have hks : floor_sort_key s = 999 := by rw [floor_sort_key, if_pos hs]
    have hkt : floor_sort_key t = -1 := by
      rw [floor_sort_key, if_neg (by simp [htrf]), if_pos ht]
    rw [hks, hkt]
    norm_num
  · intro s t hs ht hkey
    have hks : floor_sort_key s = 999 := by rw [floor_sort_key, if_pos hs]
    rw [hks, floor_sort_key, if_neg (by simp [ht])]
    by_cases hlb : upperStartsWith2 t 'L' 'B' = true
    · rw [if_pos hlb]; norm_num
    · rw [if_neg hlb]
      cases h : pyInt? t with
      | none => norm_num
      | some n =>
        rw [h] at hkey
        simpa using hkey
  · intro s t hs htlb htrf hkey
    have hsrf := not_RF_of_LB s hs
    have hks : floor_sort_key s = -1 := by
      rw [floor_sort_key, if_neg (by simp [hsrf]), if_pos hs]
    rw [hks, floor_sort_key, if_neg (by simp [htrf]), if_neg (by simp [htlb])]
    cases h : pyInt? t with
    | none =>
      norm_num
    | some n =>
      rw [h] at hkey
      simpa using hkey

/-- Witness for `floor_order_descending_key` at concrete labels and lists. -/
theorem floor_order_descending_key_witness :
    ((orderedFloorKeys ["02", "RF", "LB"]).Pairwise
        (fun a b => floor_sort_key b ≤ floor_sort_key a)
      ∧ (orderedFloorKeys ["02", "RF", "LB"]).Perm ["02", "RF", "LB"])
    ∧ floor_sort_key "LB" < floor_sort_key "RF"
    ∧ floor_sort_key "02" < floor_sort_key "RF"
    ∧ floor_sort_key "LB" < floor_sort_key "02" :=
  ⟨floor_order_descending_key.1 ["02", "RF", "LB"],
   floor_order_descending_key.2.1 "RF" "LB" (by decide) (by decide),
   floor_order_descending_key.2.2.1 "RF" "02" (by decide) (by decide) (by decide),
   floor_order_descending_key.2.2.2 "LB" "02" (by decide) (by decide) (by decide) (by decide)⟩

/-! ## Claims C6 and C7 — degenerate-input behaviour of the engine -/

/-- C6 (counterexample): with the unit-square boundary, exactly two support
points `(0.25, 0.5)` and `(0.75, 0.5)` and one full-coverage zone of weight 1,
the engine does *not* return two cells: the `len(interior_points) < 3` guard
(line 70) returns no cells at all, before the Voronoi constructor is ever
invoked (so the `vorEmpty` instance supplied for it is never consulted). -/
theorem cwv_two_sites_not_two_cells :
    (compute_weighted_voronoi (fun _ => vorEmpty) unitSquare
        [((1 : ℝ) / 4, (1 : ℝ) / 2), (3 / 4, 1 / 2)] [⟨unitSquare, 1⟩]).length ≠ 2 := by
  rw [compute_weighted_voronoi, if_pos (by simp)]
  simp

/-- C6 (amended): in that scenario the engine returns the empty cell
collection, because two sites fall under the fewer-than-3-sites degenerate
case. -/
theorem cwv_two_sites_returns_empty :
    compute_weighted_voronoi (fun _ => vorEmpty) unitSquare
        [((1 : ℝ) / 4, (1 : ℝ) / 2), (3 / 4, 1 / 2)] [⟨unitSquare, 1⟩] = [] := by
  rw [compute_weighted_voronoi, if_pos (by simp)]

/-- C7: when fewer than 3 sites are supplied, the engine returns the empty
collection of cells for every Voronoi constructor (which the source never
even invokes there: the guard at lines 70–71 precedes `Voronoi(points)` at
line 74; the function is total in the model, so no error is raised). -/
theorem cwv_fewer_than_three_sites_empty (voronoiOf : List V2 → VorDiagram)
    (boundary : Set Pt) (sites : List V2)
    (zones : List ZoneM) (h : sites.length < 3) :
    compute_weighted_voronoi voronoiOf boundary sites zones = [] := by
  rw [compute_weighted_voronoi, if_pos h]

/-- Witness for `cwv_fewer_than_three_sites_empty` at a concrete two-site
input. -/
theorem cwv_fewer_than_three_sites_empty_witness :
    ([((0 : ℝ), (0 : ℝ)), (1, 1)] : List V2).length < 3
    ∧ compute_weighted_voronoi (fun _ => vorEmpty) unitSquare
        [((0 : ℝ), (0 : ℝ)), (1, 1)] [⟨unitSquare, 1⟩] = [] :=
  ⟨by simp, cwv_fewer_than_three_sites_empty _ _ _ _ (by simp)⟩

/-! ## Claim C8 — largest-polygon selection -/

/-- C8: when the union of the extracted polygons yields several disjoint
polygons, only one with the largest area is kept as the outline (every other
fragment is dropped), and on two disjoint rings of areas 10 and 3 the output
is exactly the area-10 ring. -/
theorem mainOutline_keeps_only_largest (ps : List PolyM) (hne : ps ≠ []) :
    (∃ p, mainOutline ps = some p ∧ p ∈ ps ∧ ∀ q ∈ ps, q.area ≤ p.area)
    ∧ mainOutline [⟨10, "ring10"⟩, ⟨3, "ring3"⟩] = some ⟨10, "ring10"⟩ := by
  constructor
  · match ps, hne with
    | p :: ps, _ =>
      have hmain : mainOutline (p :: ps)
          = some (ps.foldl (fun best q => if best.area < q.area then q else best) p) := rfl
      refine ⟨_, hmain, ?_, ?_⟩
      · rcases pyMax_fold_mem ps p with h | h
        · rw [h]; exact List.mem_cons_self _ _
        · exact List.mem_cons_of_mem _ h
      · intro q hq
        rcases List.mem_cons.mp hq with rfl | hq
        · exact (pyMax_fold_le ps q).1
        · exact (pyMax_fold_le ps p).2 q hq
  · norm_num [mainOutline, pyMaxByArea, unionPartsOfDisjoint]

/-- Witness for `mainOutline_keeps_only_largest` at the two-ring scenario. -/
theorem mainOutline_keeps_only_largest_witness :
    (∃ p, mainOutline [(⟨10, "ring10"⟩ : PolyM), ⟨3, "ring3"⟩] = some p
      ∧ p ∈ [(⟨10, "ring10"⟩ : PolyM), ⟨3, "ring3"⟩]
      ∧ ∀ q ∈ [(⟨10, "ring10"⟩ : PolyM), ⟨3, "ring3"⟩], q.area ≤ p.area) :=
  (mainOutline_keeps_only_largest [⟨10, "ring10"⟩, ⟨3, "ring3"⟩] (by simp)).1

/-! ## Claim C9 — default zone weights -/

/-- C9: a zone without an explicit unit load gets weight 1.0 in the
`"Permanent Loading"` pass and 0.8 (= 4/5, floats idealized as rationals) in
the `"Imposed Loading"` pass; an explicit unit load is used exactly, and every
zone with at least 3 vertices ends up in the pass's weighted-zone list with
that weight. -/
theorem zone_default_unit_loads :
    (∀ (u : ℚ) (lt : String), zoneWeight (some u) lt = u)
    ∧ zoneWeight none "Permanent Loading" = 1
    ∧ zoneWeight none "Imposed Loading" = 4 / 5
    ∧ (∀ (zs : List RawZone) (lt : String) (z : RawZone), z ∈ zs →
        3 ≤ z.vertices.length →
        (z.vertices, zoneWeight z.unitLoad lt) ∈ buildWeightedZones zs lt) := by
  refine ⟨fun u lt => rfl, rfl, ?_, ?_⟩
  · rw [zoneWeight, if_neg (by decide)]
  · intro zs lt z hz hlen
    exact List.mem_filterMap.mpr ⟨z, hz, by rw [if_pos hlen]⟩

/-- Witness for `zone_default_unit_loads` at a concrete triangle zone. -/
theorem zone_default_unit_loads_witness :
    zoneWeight none "Imposed Loading" = 4 / 5
    ∧ (([((0 : ℚ), (0 : ℚ)), (1, 0), (0, 1)], zoneWeight none "Imposed Loading")
        ∈ buildWeightedZones [⟨[(0, 0), (1, 0), (0, 1)], none⟩] "Imposed Loading") :=
  ⟨zone_default_unit_loads.2.2.1,
   zone_default_unit_loads.2.2.2 [⟨[(0, 0), (1, 0), (0, 1)], none⟩] "Imposed Loading"
     ⟨[(0, 0), (1, 0), (0, 1)], none⟩ (by simp) (by simp)⟩

/-! ## Claim C10 — zero loads emitted as blank -/

/-- C10: a per-floor load cell whose paired weighted-area value is exactly 0
is emitted as missing (`None`) rather than as 0.0 — Python truthiness on line
99–100 — so a zero-load floor is indistinguishable from a floor with no value
for that pass (`rowLoadCells [0, 0] = rowLoadCells []`); nonzero values are
emitted rounded to 2 decimals. -/
theorem zero_load_cells_blank :
    emitLoad (some 0) = none
    ∧ emitLoad none = none
    ∧ (∀ v : ℚ, v ≠ 0 → emitLoad (some v) = some (pyRound2 v))
    ∧ rowLoadCells [0, 0] = rowLoadCells [] := by
  refine ⟨rfl, rfl, ?_, ?_⟩
  · intro v hv
    rw [emitLoad, if_neg hv]
  · simp [rowLoadCells, emitLoad]

/-- Witness for `zero_load_cells_blank` at the nonzero value 7. -/
theorem zero_load_cells_blank_witness :
    (7 : ℚ) ≠ 0 ∧ emitLoad (some 7) = some (pyRound2 7) :=
  ⟨by norm_num, zero_load_cells_blank.2.2.1 7 (by norm_num)⟩

/-! ## Claim C1 — grouping is role-blind -/

lemma tryAppend_points_count (r : ℚ) (fl : String) (c : VEntry) :
    ∀ (gs gs' : List CGroup), tryAppend r fl c gs = some gs' →
      (gs'.map (fun g => g.points.length)).sum
        = (gs.map (fun g => g.points.length)).sum + 1
  | [], _, h => by simp [tryAppend] at h
  | g :: gs, gs', h => by
    rw [tryAppend] at h
    by_cases hd : sqDist (c.x, c.y) (lastPos g) ≤ r ^ 2
    · rw [if_pos hd] at h
      cases h
      simp
      omega
    · rw [if_neg hd] at h
      cases hta : tryAppend r fl c gs with
      | none => rw [hta] at h; simp at h
      | some gs'' =>
        rw [hta] at h
        simp only [Option.map_some'] at h
        cases h
        have := tryAppend_points_count r fl c gs gs'' hta
        simp [this]
        omega

lemma stepPoint_points_count (r : ℚ) (fl : String) (st : List CGroup × Nat) (c : VEntry) :
    (((stepPoint r fl st c).1.map (fun g => g.points.length)).sum)
      = ((st.1.map (fun g => g.points.length)).sum) + 1 := by
  rw [stepPoint]
  cases hta : tryAppend r fl c st.1 with
  | none => simp
  | some gs => exact tryAppend_points_count r fl c st.1 gs hta

lemma foldl_stepPoint_count (r : ℚ) (fl : String) :
    ∀ (cs : List VEntry) (st : List CGroup × Nat),
      (((cs.foldl (stepPoint r fl) st).1.map (fun g => g.points.length)).sum)
        = ((st.1.map (fun g => g.points.length)).sum) + cs.length
  | [], st => by simp
  | c :: cs, st => by
    rw [List.foldl_cons, foldl_stepPoint_count r fl cs (stepPoint r fl st c),
      stepPoint_points_count]
    simp
    omega

lemma groupCore_count (r : ℚ) :
    ∀ (floors : List (String × List VEntry)) (st : List CGroup × Nat),
      (((floors.foldl (stepFloor r) st).1.map (fun g => g.points.length)).sum)
        = ((st.1.map (fun g => g.points.length)).sum)
          + ((floors.map (fun fe => fe.2.length)).sum)
  | [], st => by simp
  | fe :: floors, st => by
    rw [List.foldl_cons, groupCore_count r floors (stepFloor r st fe)]
    rw [stepFloor, foldl_stepPoint_count]
    simp
    omega

lemma lastPos_mapCtype (f : String → String) (g : CGroup) :
    lastPos (mapCtypeGroup f g) = lastPos g := by
  rw [mapCtypeGroup, lastPos, lastPos]
  simp only [List.getLast?_map]
  cases g.points.getLast? <;> simp

lemma tryAppend_mapCtype (r : ℚ) (fl : String) (f : String → String) (c : VEntry) :
    ∀ gs : List CGroup,
      tryAppend r fl (mapCtypeEntry f c) (gs.map (mapCtypeGroup f))
        = (tryAppend r fl c gs).map (fun l => l.map (mapCtypeGroup f))
  | [] => rfl
  | g :: gs => by
    rw [List.map_cons, tryAppend, tryAppend, lastPos_mapCtype]
    by_cases hd : sqDist (c.x, c.y) (lastPos g) ≤ r ^ 2
    · rw [if_pos (by simpa [mapCtypeEntry] using hd), if_pos hd]
      simp only [Option.map_some']
      congr 1
      simp [mapCtypeGroup, mapCtypeEntry, mkGPoint]
    · rw [if_neg (by simpa [mapCtypeEntry] using hd), if_neg hd,
        tryAppend_mapCtype r fl f c gs]
      cases tryAppend r fl c gs <;> simp

lemma stepPoint_mapCtype (r : ℚ) (fl : String) (f : String → String)
    (st : List CGroup × Nat) (c : VEntry) :
    stepPoint r fl (st.1.map (mapCtypeGroup f), st.2) (mapCtypeEntry f c)
      = ((stepPoint r fl st c).1.map (mapCtypeGroup f), (stepPoint r fl st c).2) := by
  rw [stepPoint, stepPoint]
  simp only
  rw [tryAppend_mapCtype]
  cases tryAppend r fl c st.1 with
  | none => simp [mapCtypeGroup, mapCtypeEntry, mkGPoint]
  | some gs => simp

lemma foldl_stepPoint_mapCtype (r : ℚ) (fl : String) (f : String → String) :
    ∀ (cs : List VEntry) (st : List CGroup × Nat),
      (cs.map (mapCtypeEntry f)).foldl (stepPoint r fl)
          (st.1.map (mapCtypeGroup f), st.2)
        = (((cs.foldl (stepPoint r fl) st).1.map (mapCtypeGroup f)),
           (cs.foldl (stepPoint r fl) st).2)
  | [], st => by simp
  | c :: cs, st => by
    rw [List.map_cons, List.foldl_cons, List.foldl_cons, stepPoint_mapCtype,
      foldl_stepPoint_mapCtype r fl f cs (stepPoint r fl st c)]

lemma stepFloor_mapCtype (r : ℚ) (f : String → String) (st : List CGroup × Nat)
    (fe : String × List VEntry) :
    stepFloor r (st.1.map (mapCtypeGroup f), st.2) (fe.1, fe.2.map (mapCtypeEntry f))
      = (((stepFloor r st fe).1.map (mapCtypeGroup f)), (stepFloor r st fe).2) := by
  rw [stepFloor, stepFloor]
  exact foldl_stepPoint_mapCtype r fe.1 f fe.2 st

lemma groupCore_mapCtype (r : ℚ) (f : String → String) :
    ∀ (floors : List (String × List VEntry)) (st : List CGroup × Nat),
      (floors.map (fun fe => (fe.1, fe.2.map (mapCtypeEntry f)))).foldl (stepFloor r)
          (st.1.map (mapCtypeGroup f), st.2)
        = (((floors.foldl (stepFloor r) st).1.map (mapCtypeGroup f)),
           (floors.foldl (stepFloor r) st).2)
  | [], st => by simp
  | fe :: floors, st => by
    rw [List.map_cons, List.foldl_cons, List.foldl_cons, stepFloor_mapCtype,
      groupCore_mapCtype r f floors (stepFloor r st fe)]

lemma orderedInsert_map_fst (f : String → String) (a : String × List VEntry) :
    ∀ l : List (String × List VEntry),
      List.orderedInsert (fun x y => floor_sort_key y.1 ≤ floor_sort_key x.1)
          ((fun fe => (fe.1, fe.2.map (mapCtypeEntry f))) a)
          (l.map (fun fe => (fe.1, fe.2.map (mapCtypeEntry f))))
        = (List.orderedInsert (fun x y => floor_sort_key y.1 ≤ floor_sort_key x.1) a l).map
            (fun fe => (fe.1, fe.2.map (mapCtypeEntry f)))
  | [] => rfl
  | b :: l => by
    rw [List.map_cons, List.orderedInsert, List.orderedInsert]
    by_cases h : floor_sort_key b.1 ≤ floor_sort_key a.1
    · rw [if_pos h, if_pos h]
      simp
    · rw [if_neg h, if_neg h, List.map_cons, orderedInsert_map_fst f a l]

lemma orderFloorsData_mapCtype (f : String → String) :
    ∀ floors : List (String × List VEntry),
      orderFloorsData (mapCtypeFloors f floors)
        = mapCtypeFloors f (orderFloorsData floors)
  | [] => rfl
  | fe :: floors => by
    rw [mapCtypeFloors, orderFloorsData, List.map_cons, List.insertionSort]
    have ih := orderFloorsData_mapCtype f floors
    rw [mapCtypeFloors] at ih
    rw [orderFloorsData] at ih
    rw [ih, mapCtypeFloors]
    exact orderedInsert_map_fst f fe (List.insertionSort _ floors)

/-- C1 (counterexample): a `"Wall"`-role entry *is* grouped: as the only entry
of the only floor it seeds ColumnGroup 1, so wall samples are not excluded
from cross-floor grouping (nothing in `group_columns_by_alignment` inspects
the `Type` field). -/
theorem wall_entry_seeds_group :
    group_columns_by_alignment (1 / 2) [("01", [⟨0, 0, 1, 2, "Wall"⟩])]
      = [⟨1, [⟨"01", 0, 0, 1, 2, "Wall"⟩]⟩]
    ∧ "Wall" ≠ "Column" := by
  constructor
  · simp [group_columns_by_alignment, groupCore, orderFloorsData, stepFloor,
      stepPoint, tryAppend, mkGPoint]
  · decide

/-- C1 (amended): every entry of every floor's `"columns"` list — wall-sample
and foundation records included — participates in cross-floor grouping exactly
like column records: the total number of grouped points equals the total
number of entries, and relabelling every role tag leaves the produced groups
unchanged except for the carried tags (grouping is role-blind). -/
theorem grouping_includes_all_roles (r : ℚ) (floors : List (String × List VEntry))
    (f : String → String) :
    (((group_columns_by_alignment r floors).map (fun g => g.points.length)).sum
        = (floors.map (fun fe => fe.2.length)).sum)
    ∧ group_columns_by_alignment r (mapCtypeFloors f floors)
        = (group_columns_by_alignment r floors).map (mapCtypeGroup f) := by
  constructor
  · rw [group_columns_by_alignment, groupCore, groupCore_count]
    have hperm : List.Perm (orderFloorsData floors) floors :=
      List.perm_insertionSort _ floors
    have hsum := List.Perm.sum_eq (List.Perm.map (fun fe => fe.2.length) hperm)
    simp [hsum]
  · rw [group_columns_by_alignment, group_columns_by_alignment,
      orderFloorsData_mapCtype, groupCore, groupCore]
    have h := groupCore_mapCtype r f (orderFloorsData floors) ([], 1)
    simp only [List.map_nil] at h
    rw [mapCtypeFloors, h]

/-! ## Claim C3 — first-match grouping with a drifting reference -/

lemma tryAppend_eq_findIdx (r : ℚ) (fl : String) (c : VEntry) :
    ∀ gs : List CGroup,
      tryAppend r fl c gs
        = (gs.findIdx? (fun g => decide (sqDist (c.x, c.y) (lastPos g) ≤ r ^ 2))).map
            (fun k => appendAtIdx fl c gs k)
  | [] => rfl
  | g :: gs => by
    rw [tryAppend, List.findIdx?_cons]
    by_cases h : sqDist (c.x, c.y) (lastPos g) ≤ r ^ 2
    · rw [if_pos h, if_pos (by simpa using h)]
      rfl
    · rw [if_neg h, if_neg (by simpa using h), List.findIdx?_succ,
        tryAppend_eq_findIdx r fl c gs]
      cases gs.findIdx? (fun g => decide (sqDist (c.x, c.y) (lastPos g) ≤ r ^ 2)) <;>
        simp [appendAtIdx]

/-- C3: processing one support point is first-match with a drifting reference:
(1) the source step equals the spec-side step that appends the point to the
*first* open group (in creation = list order) whose *last* recorded position
passes the radius test, seeding a new group when none does; (2) after an
append, the group's last recorded position is the appended point, so it is
the reference for all later comparisons; (3) for the default radius 0.5 (or
any nonnegative radius) the rational test `sqDist ≤ r²` is exactly the
Euclidean-distance test `dist ≤ r` of `math.dist` in the plane. -/
theorem grouping_first_match_semantics (r : ℚ) (fl : String) (st : List CGroup × Nat)
    (c : VEntry) (g : CGroup) (hr : 0 ≤ r) :
    stepPoint r fl st c = specStep r fl st c
    ∧ lastPos { g with points := g.points ++ [mkGPoint fl c] } = (c.x, c.y)
    ∧ (sqDist (c.x, c.y) (lastPos g) ≤ r ^ 2
        ↔ dist (pt (c.x : ℝ) (c.y : ℝ))
            (pt ((lastPos g).1 : ℝ) ((lastPos g).2 : ℝ)) ≤ (r : ℝ)) := by
  refine ⟨?_, ?_, ?_⟩
  · rw [stepPoint, specStep, tryAppend_eq_findIdx]
    cases st.1.findIdx? (fun g => decide (sqDist (c.x, c.y) (lastPos g) ≤ r ^ 2)) <;> rfl
  · rw [lastPos]
    simp [List.getLast?_concat, mkGPoint]
  · rw [EuclideanSpace.dist_eq]
    have hsum : ∑ i : Fin 2,
        dist (pt (c.x : ℝ) (c.y : ℝ) i) (pt ((lastPos g).1 : ℝ) ((lastPos g).2 : ℝ) i) ^ 2
          = ((sqDist (c.x, c.y) (lastPos g) : ℚ) : ℝ) := by
      rw [Fin.sum_univ_two]
      simp only [pt, Matrix.cons_val_zero, Matrix.cons_val_one, Matrix.head_cons,
        Real.dist_eq, sq_abs, sqDist]
      push_cast
      ring
    rw [hsum, Real.sqrt_le_iff]
    constructor
    · intro h
      refine ⟨by exact_mod_cast hr, ?_⟩
      have : ((sqDist (c.x, c.y) (lastPos g) : ℚ) : ℝ) ≤ ((r ^ 2 : ℚ) : ℝ) := by
        exact_mod_cast h
      simpa [Rat.cast_pow] using this
    · rintro ⟨-, h⟩
      have : ((sqDist (c.x, c.y) (lastPos g) : ℚ) : ℝ) ≤ ((r : ℝ)) ^ 2 := h
      exact_mod_cast this

/-- Witness for `grouping_first_match_semantics` at the default radius 0.5 and
a concrete state. -/
theorem grouping_first_match_semantics_witness :
    (0 : ℚ) ≤ 1 / 2
    ∧ (stepPoint (1 / 2) "01" ([], 1) ⟨0, 0, 1, 2, "Column"⟩
        = specStep (1 / 2) "01" ([], 1) ⟨0, 0, 1, 2, "Column"⟩
      ∧ lastPos { (⟨1, []⟩ : CGroup) with
            points := (⟨1, []⟩ : CGroup).points ++ [mkGPoint "01" ⟨0, 0, 1, 2, "Column"⟩] }
          = ((0 : ℚ), (0 : ℚ))
      ∧ (sqDist ((0 : ℚ), (0 : ℚ)) (lastPos (⟨1, []⟩ : CGroup)) ≤ (1 / 2 : ℚ) ^ 2
          ↔ dist (pt ((0 : ℚ) : ℝ) ((0 : ℚ) : ℝ))
              (pt ((lastPos (⟨1, []⟩ : CGroup)).1 : ℝ)
                  ((lastPos (⟨1, []⟩ : CGroup)).2 : ℝ)) ≤ ((1 / 2 : ℚ) : ℝ))) :=
  ⟨by norm_num,
   grouping_first_match_semantics (1 / 2) "01" ([], 1) ⟨0, 0, 1, 2, "Column"⟩ ⟨1, []⟩
     (by norm_num)⟩

/-! ## Claim C2 — do the clipped cells tile the boundary? -/

open MeasureTheory

lemma list_map_sum_eq_fin_sum {α : Type*} {β : Type*} [AddCommMonoid β] :
    ∀ (l : List α) (f : α → β), (l.map f).sum = ∑ i : Fin l.length, f (l.get i)
  | [], _ => by simp
  | z :: l, f => by
    rw [List.map_cons, List.sum_cons, list_map_sum_eq_fin_sum l f]
    simp only [List.length_cons]
    rw [Fin.sum_univ_succ]
    rfl

lemma abs_div_sqrt_le_one (a b : ℝ) : |a / Real.sqrt (a ^ 2 + b ^ 2)| ≤ 1 := by
  rcases eq_or_ne (Real.sqrt (a ^ 2 + b ^ 2)) 0 with h | h
  · rw [h, div_zero, abs_zero]
    exact zero_le_one
  · have hpos : 0 < Real.sqrt (a ^ 2 + b ^ 2) :=
      lt_of_le_of_ne (Real.sqrt_nonneg _) (Ne.symm h)
    rw [abs_div, abs_of_pos hpos, div_le_one hpos]
    calc |a| = Real.sqrt (|a| ^ 2) := (Real.sqrt_sq (abs_nonneg a)).symm
      _ ≤ Real.sqrt (a ^ 2 + b ^ 2) :=
          Real.sqrt_le_sqrt (by rw [sq_abs]; nlinarith [sq_nonneg b])

lemma abs_div_sqrt_le_one' (a b : ℝ) : |b / Real.sqrt (a ^ 2 + b ^ 2)| ≤ 1 := by
  rw [add_comm]
  exact abs_div_sqrt_le_one b a

lemma abs_real_sign_le_one (x : ℝ) : |Real.sign x| ≤ 1 := by
  rcases lt_trichotomy x 0 with h | h | h
  · rw [Real.sign_of_neg h]
    norm_num
  · rw [h, Real.sign_zero]
    norm_num
  · rw [Real.sign_of_pos h]
    norm_num

lemma sqrt_sq_add_sq_le_abs_add_abs (a b : ℝ) :
    Real.sqrt (a ^ 2 + b ^ 2) ≤ |a| + |b| := by
  calc Real.sqrt (a ^ 2 + b ^ 2)
      ≤ Real.sqrt ((|a| + |b|) ^ 2) := by
        refine Real.sqrt_le_sqrt ?_
        have ha := abs_nonneg a
        have hb := abs_nonneg b
        have h2 : a ^ 2 = |a| ^ 2 := (sq_abs a).symm
        have h3 : b ^ 2 = |b| ^ 2 := (sq_abs b).symm
        nlinarith [mul_nonneg ha hb]
    _ = |a| + |b| := Real.sqrt_sq (by positivity)

lemma vfFarPoint_comp_bound (vor : VorDiagram) (center : V2) (radius R : ℝ)
    (hR : 0 ≤ R) (hv : ∀ w ∈ vor.vertices, |w.1| ≤ R ∧ |w.2| ≤ R)
    (p1 p2 : ℕ) (v2 : ℤ) :
    |(vfFarPoint vor center radius p1 p2 v2).1| ≤ R + |radius|
    ∧ |(vfFarPoint vor center radius p1 p2 v2).2| ≤ R + |radius| := by
  have hvsrc : |(vor.vertices.getD v2.toNat (0, 0)).1| ≤ R
      ∧ |(vor.vertices.getD v2.toNat (0, 0)).2| ≤ R := by
    by_cases h : v2.toNat < vor.vertices.length
    · rw [List.getD_eq_getElem vor.vertices (0, 0) h]
      exact hv _ (List.getElem_mem h)
    · rw [List.getD_eq_default vor.vertices (0, 0) (le_of_not_lt h)]
      constructor <;> simpa using hR
  have hsign := abs_real_sign_le_one
      (((vor.points.getD p1 (0, 0)).1 + (vor.points.getD p2 (0, 0)).1) / 2 - center.1)
  simp only [vfFarPoint]
  constructor
  · refine (abs_add _ _).trans (add_le_add hvsrc.1 ?_)
    rw [abs_mul, abs_mul, abs_neg]
    calc _ ≤ 1 * 1 * |radius| := by
          refine mul_le_mul_of_nonneg_right
            (mul_le_mul (abs_real_sign_le_one _) (abs_div_sqrt_le_one' _ _)
              (abs_nonneg _) zero_le_one) (abs_nonneg radius)
      _ = |radius| := by ring
  · refine (abs_add _ _).trans (add_le_add hvsrc.2 ?_)
    rw [abs_mul, abs_mul]
    calc _ ≤ 1 * 1 * |radius| := by
          refine mul_le_mul_of_nonneg_right
            (mul_le_mul (abs_real_sign_le_one _) (abs_div_sqrt_le_one _ _)
              (abs_nonneg _) zero_le_one) (abs_nonneg radius)
      _ = |radius| := by ring

lemma vfRidgeFold_vertex_bound (vor : VorDiagram) (center : V2) (radius R : ℝ)
    (hR : 0 ≤ R) (hv : ∀ w ∈ vor.vertices, |w.1| ≤ R ∧ |w.2| ≤ R) (p1 : ℕ) :
    ∀ (rs : List (ℕ × ℤ × ℤ)) (st : List ℕ × List V2),
      (∀ w ∈ st.2, |w.1| ≤ R + |radius| ∧ |w.2| ≤ R + |radius|) →
      ∀ w ∈ (rs.foldl (vfRidgeStep vor center radius p1) st).2,
        |w.1| ≤ R + |radius| ∧ |w.2| ≤ R + |radius|
  | [], _, hst => hst
  | r :: rs, st, hst => by
    rw [List.foldl_cons]
    refine vfRidgeFold_vertex_bound vor center radius R hR hv p1 rs _ ?_
    simp only [vfRidgeStep]
    by_cases h : (0 : ℤ) ≤ (if r.2.2 < 0 then r.2.2 else r.2.1)
    · rw [if_pos h]
      exact hst
    · rw [if_neg h]
      intro w hw
      rcases List.mem_append.mp hw with hw | hw
      · exact hst w hw
      · rw [List.mem_singleton.mp hw]
        exact vfFarPoint_comp_bound vor center radius R hR hv p1 r.1 _

lemma vfStep_vertex_bound (vor : VorDiagram) (center : V2) (radius R : ℝ)
    (hR : 0 ≤ R) (hv : ∀ w ∈ vor.vertices, |w.1| ≤ R ∧ |w.2| ≤ R)
    (st : List (List ℕ) × List V2) (p1 region_idx : ℕ)
    (hst : ∀ w ∈ st.2, |w.1| ≤ R + |radius| ∧ |w.2| ≤ R + |radius|) :
    ∀ w ∈ (vfStep vor center radius st p1 region_idx).2,
      |w.1| ≤ R + |radius| ∧ |w.2| ≤ R + |radius| := by
  simp only [vfStep]
  by_cases h1 : (vor.regions.getD region_idx []) = []
      ∨ ∀ v ∈ vor.regions.getD region_idx [], (0 : ℤ) ≤ v
  · rw [if_pos h1]
    exact hst
  · rw [if_neg h1]
    have hfold := vfRidgeFold_vertex_bound vor center radius R hR hv p1
      (ridgesOf vor p1)
      (((vor.regions.getD region_idx []).filter (fun v => 0 ≤ v)).map Int.toNat, st.2)
      hst
    by_cases h2 : ((ridgesOf vor p1).foldl (vfRidgeStep vor center radius p1)
        (((vor.regions.getD region_idx []).filter (fun v => 0 ≤ v)).map Int.toNat,
          st.2)).1.length < 3
    · rw [if_pos h2]
      exact hfold
    · rw [if_neg h2]
      exact hfold

lemma vf_fold_vertex_bound (vor : VorDiagram) (center : V2) (radius R : ℝ)
    (hR : 0 ≤ R) (hv : ∀ w ∈ vor.vertices, |w.1| ≤ R ∧ |w.2| ≤ R) :
    ∀ (l : List (ℕ × ℕ)) (st : List (List ℕ) × List V2),
      (∀ w ∈ st.2, |w.1| ≤ R + |radius| ∧ |w.2| ≤ R + |radius|) →
      ∀ w ∈ (l.foldl (fun st pr => vfStep vor center radius st pr.1 pr.2) st).2,
        |w.1| ≤ R + |radius| ∧ |w.2| ≤ R + |radius|
  | [], _, hst => hst
  | pr :: l, st, hst => by
    rw [List.foldl_cons]
    exact vf_fold_vertex_bound vor center radius R hR hv l _
      (vfStep_vertex_bound vor center radius R hR hv st pr.1 pr.2 hst)

/-- Every vertex of the reconstruction (original Voronoi vertices and
synthesized far points alike) stays within `R + |radius|` per coordinate,
when the diagram's own vertices stay within `R`: each far point moves a
vertex by at most `radius` in each coordinate, since the extension direction
is unit-length. -/
lemma vf_vertex_bound (vor : VorDiagram) (R : ℝ) (hR : 0 ≤ R)
    (hv : ∀ w ∈ vor.vertices, |w.1| ≤ R ∧ |w.2| ≤ R) :
    ∀ w ∈ (voronoi_finite_polygons_2d vor).2,
      |w.1| ≤ R + |vfRadius vor| ∧ |w.2| ≤ R + |vfRadius vor| := by
  rw [voronoi_finite_polygons_2d]
  refine vf_fold_vertex_bound vor (vfCenter vor) (vfRadius vor) R hR hv
    vor.point_region.enum ([], vor.vertices) ?_
  intro w hw
  exact ⟨(hv w hw).1.trans (le_add_of_nonneg_right (abs_nonneg _)),
    (hv w hw).2.trans (le_add_of_nonneg_right (abs_nonneg _))⟩

lemma vfStep_regions_length (vor : VorDiagram) (center : V2) (radius : ℝ)
    (st : List (List ℕ) × List V2) (p1 region_idx : ℕ) :
    (vfStep vor center radius st p1 region_idx).1.length ≤ st.1.length + 1 := by
  simp only [vfStep]
  by_cases h1 : (vor.regions.getD region_idx []) = []
      ∨ ∀ v ∈ vor.regions.getD region_idx [], (0 : ℤ) ≤ v
  · rw [if_pos h1]
    simp
  · rw [if_neg h1]
    by_cases h2 : ((ridgesOf vor p1).foldl (vfRidgeStep vor center radius p1)
        (((vor.regions.getD region_idx []).filter (fun v => 0 ≤ v)).map Int.toNat,
          st.2)).1.length < 3
    · rw [if_pos h2]
      exact Nat.le_succ _
    · rw [if_neg h2]
      simp

lemma vf_fold_regions_length (vor : VorDiagram) (center : V2) (radius : ℝ) :
    ∀ (l : List (ℕ × ℕ)) (st : List (List ℕ) × List V2),
      (l.foldl (fun st pr => vfStep vor center radius st pr.1 pr.2) st).1.length
        ≤ st.1.length + l.length
  | [], st => by simp
  | pr :: l, st => by
    rw [List.foldl_cons]
    refine (vf_fold_regions_length vor center radius l _).trans ?_
    have := vfStep_regions_length vor center radius st pr.1 pr.2
    simp only [List.length_cons]
    omega

/-- The reconstruction returns at most one region per site. -/
lemma vf_regions_length (vor : VorDiagram) :
    (voronoi_finite_polygons_2d vor).1.length ≤ vor.point_region.length := by
  rw [voronoi_finite_polygons_2d]
  have := vf_fold_regions_length vor (vfCenter vor) (vfRadius vor)
    vor.point_region.enum ([], vor.vertices)
  simpa using this

lemma polygonSet_vertexSet_finite (ring : List V2) :
    {p : Pt | ∃ v ∈ ring, p = pt v.1 v.2}.Finite := by
  have h : {p : Pt | ∃ v ∈ ring, p = pt v.1 v.2}
      = (fun v : V2 => pt v.1 v.2) '' {v | v ∈ ring} := by
    ext p
    simp [eq_comm]
  rw [h]
  exact (ring.finite_toSet).image _

lemma polygonSet_measurableSet (ring : List V2) : MeasurableSet (polygonSet ring) :=
  ((polygonSet_vertexSet_finite ring).isCompact_convexHull).isClosed.measurableSet

lemma polygonSet_volume_ne_top (ring : List V2) :
    volume (polygonSet ring) ≠ ⊤ :=
  ((polygonSet_vertexSet_finite ring).isCompact_convexHull).measure_lt_top.ne

/-- Each returned cell record carries its clipped polygon region, built from
reconstruction vertices, with its raw area the polygon's area and the polygon
contained in the boundary. -/
lemma cwvCells_mem_spec (vor : VorDiagram) (B : Set Pt) (ips : List V2)
    (zones : List ZoneM) :
    ∀ cr ∈ cwvCells vor B ips zones,
      ∃ verts : List V2, (∀ v ∈ verts, v ∈ (voronoi_finite_polygons_2d vor).2)
        ∧ cr.polygon = polygonSet verts ∩ B
        ∧ cr.area_raw = (volume cr.polygon).toReal := by
  intro cr hcr
  rw [cwvCells] at hcr
  obtain ⟨ir, hmem, hf⟩ := List.mem_filterMap.mp hcr
  by_cases h1 : ir.2 = [] ∨ ∃ v ∈ ir.2, (voronoi_finite_polygons_2d vor).2.length ≤ v
  · rw [if_pos h1] at hf
    exact absurd hf (by simp)
  · rw [if_neg h1] at hf
    by_cases h2 : polygonSet (ir.2.map (fun v =>
        (voronoi_finite_polygons_2d vor).2.getD v (0, 0))) ∩ B = ∅
    · rw [if_pos h2] at hf
      exact absurd hf (by simp)
    · rw [if_neg h2] at hf
      obtain rfl := Option.some.inj hf
      refine ⟨ir.2.map (fun v => (voronoi_finite_polygons_2d vor).2.getD v (0, 0)),
        ?_, rfl, rfl⟩
      intro v hv
      obtain ⟨w, hw, rfl⟩ := List.mem_map.mp hv
      push_neg at h1
      have hwlt : w < (voronoi_finite_polygons_2d vor).2.length := h1.2 w hw
      rw [List.getD_eq_getElem _ _ hwlt]
      exact List.getElem_mem hwlt

/-- When every reconstruction vertex lies in the closed ball of radius `D`
(coordinate sum bound), every returned raw area is at most that ball's area. -/
lemma cwvCells_area_raw_le (vor : VorDiagram) (B : Set Pt) (ips : List V2)
    (zones : List ZoneM) (D : ℝ)
    (hvert : ∀ w ∈ (voronoi_finite_polygons_2d vor).2, |w.1| + |w.2| ≤ D) :
    ∀ cr ∈ cwvCells vor B ips zones,
      cr.area_raw ≤ (volume (Metric.closedBall (0 : Pt) D)).toReal := by
  intro cr hcr
  obtain ⟨verts, hverts, hpoly, harea⟩ := cwvCells_mem_spec vor B ips zones cr hcr
  rw [harea, hpoly]
  refine ENNReal.toReal_mono measure_closedBall_lt_top.ne (measure_mono ?_)
  refine Set.inter_subset_left.trans ?_
  rw [polygonSet]
  refine convexHull_min ?_ (convex_closedBall 0 D)
  rintro p ⟨v, hvmem, rfl⟩
  have hD := hvert v (hverts v hvmem)
  rw [Metric.mem_closedBall, EuclideanSpace.dist_eq, Fin.sum_univ_two]
  have h0 : (0 : Pt) 0 = 0 := rfl
  have h1 : (0 : Pt) 1 = 0 := rfl
  rw [h0, h1]
  have hc0 : pt v.1 v.2 0 = v.1 := rfl
  have hc1 : pt v.1 v.2 1 = v.2 := rfl
  rw [hc0, hc1, Real.dist_eq, Real.dist_eq, sub_zero, sub_zero]
  refine (sqrt_sq_add_sq_le_abs_add_abs _ _).trans ?_
  rw [abs_abs, abs_abs]
  exact hD

/-- Pairwise a.e.-disjoint measurable sets of finite measure in a list have
areas summing to the area of their union. -/
lemma sum_toReal_volume_list (L : List (Set Pt))
    (hms : ∀ s ∈ L, MeasurableSet s) (hfin : ∀ s ∈ L, volume s ≠ ⊤)
    (hdisj : L.Pairwise (fun s t => volume (s ∩ t) = 0)) :
    (L.map (fun s => (volume s).toReal)).sum = (volume (⋃ s ∈ L, s)).toReal := by
  rw [list_map_sum_eq_fin_sum]
  have hpair := List.pairwise_iff_get.mp hdisj
  have hd : (Finset.univ : Finset (Fin L.length)).toSet.Pairwise
      (AEDisjoint volume on fun i => L.get i) := by
    intro i _ j _ hij
    rcases lt_or_gt_of_ne hij with hlt | hgt
    · exact hpair i j hlt
    · refine measure_mono_null ?_ (hpair j i hgt)
      intro p hp
      exact ⟨hp.2, hp.1⟩
  have key : volume (⋃ i ∈ (Finset.univ : Finset (Fin L.length)), L.get i)
      = ∑ i ∈ (Finset.univ : Finset (Fin L.length)), volume (L.get i) :=
    measure_biUnion_finset₀ hd
      (fun i _ => (hms _ (L.get_mem i.1 i.2)).nullMeasurableSet)
  have hUeq : (⋃ i ∈ (Finset.univ : Finset (Fin L.length)), L.get i)
      = ⋃ s ∈ L, s := by
    ext p
    simp only [Set.mem_iUnion]
    constructor
    · rintro ⟨i, -, hp⟩
      exact ⟨L.get i, ⟨L.get_mem i.1 i.2, hp⟩⟩
    · rintro ⟨s, ⟨hs, hp⟩⟩
      obtain ⟨i, rfl⟩ := List.mem_iff_get.mp hs
      exact ⟨i, ⟨Finset.mem_univ i, hp⟩⟩
  rw [← hUeq, key, ENNReal.toReal_sum (fun i _ => hfin _ (L.get_mem i.1 i.2))]

lemma bigSquare_corner_mem (v : V2) (hv : v ∈ bigSquare) :
    pt v.1 v.2 ∈ polygonSet bigSquare :=
  subset_convexHull ℝ _ ⟨v, hv, rfl⟩

lemma segment_pt_horizontal (a y : ℝ) (ha : |a| ≤ 100) :
    pt a y ∈ segment ℝ (pt (-100) y) (pt 100 y) := by
  refine ⟨(100 - a) / 200, (a + 100) / 200, ?_, ?_, by ring, ?_⟩
  · rw [abs_le] at ha
    linarith
  · rw [abs_le] at ha
    linarith
  · funext i
    fin_cases i <;>
      simp [pt, PiLp.smul_apply, PiLp.add_apply, smul_eq_mul] <;> ring

/-- The open 100-ball around the origin is inside the 200 × 200 square (so
the square's area is at least the ball's). -/
lemma ball_subset_polygonSet_bigSquare :
    Metric.ball (0 : Pt) 100 ⊆ polygonSet bigSquare := by
  intro p hp
  have hd : dist p 0 < 100 := Metric.mem_ball.mp hp
  rw [EuclideanSpace.dist_eq, Fin.sum_univ_two] at hd
  have h00 : (0 : Pt) 0 = 0 := rfl
  have h01 : (0 : Pt) 1 = 0 := rfl
  rw [h00, h01, Real.dist_eq, Real.dist_eq, sub_zero, sub_zero, sq_abs, sq_abs] at hd
  have hcoord : ∀ x y : ℝ, Real.sqrt (x ^ 2 + y ^ 2) < 100 → |x| ≤ 100 := by
    intro x y h
    have h1 : |x| = Real.sqrt (x ^ 2) := by
      rw [← sq_abs x, Real.sqrt_sq (abs_nonneg x)]
    have h2 : Real.sqrt (x ^ 2) ≤ Real.sqrt (x ^ 2 + y ^ 2) :=
      Real.sqrt_le_sqrt (by nlinarith [sq_nonneg y])
    calc |x| = Real.sqrt (x ^ 2) := h1
      _ ≤ Real.sqrt (x ^ 2 + y ^ 2) := h2
      _ ≤ 100 := le_of_lt h
  have h0 : |p 0| ≤ 100 := hcoord (p 0) (p 1) hd
  have h1 : |p 1| ≤ 100 := hcoord (p 1) (p 0) (by rw [add_comm]; exact hd)
  have hbot : pt (p 0) (-100) ∈ polygonSet bigSquare := by
    refine (convex_convexHull ℝ _).segment_subset
      (bigSquare_corner_mem (-100, -100) (by simp [bigSquare]))
      (bigSquare_corner_mem (100, -100) (by simp [bigSquare]))
      (segment_pt_horizontal (p 0) (-100) h0)
  have htop : pt (p 0) 100 ∈ polygonSet bigSquare := by
    refine (convex_convexHull ℝ _).segment_subset
      (bigSquare_corner_mem (-100, 100) (by simp [bigSquare]))
      (bigSquare_corner_mem (100, 100) (by simp [bigSquare]))
      (segment_pt_horizontal (p 0) 100 h0)
  have hseg : p ∈ segment ℝ (pt (p 0) (-100)) (pt (p 0) 100) := by
    refine ⟨(100 - p 1) / 200, (p 1 + 100) / 200, ?_, ?_, by ring, ?_⟩
    · rw [abs_le] at h1
      linarith
    · rw [abs_le] at h1
      linarith
    · funext i
      fin_cases i <;>
        simp [pt, PiLp.smul_apply, PiLp.add_apply, smul_eq_mul] <;> ring
  exact (convex_convexHull ℝ _).segment_subset hbot htop hseg

/-- C2 (counterexample): the tiling property fails when the boundary extends
beyond the synthesized extension radius.  For the three pairwise-distinct
sites (0,0), (2,0), (0,2) — a valid input, 3 sites — with the 200 m × 200 m
square floor boundary, `voronoi_finite_polygons_2d` extends each open ridge
by only `np.ptp(points).max() * 2 = 4` from the single Voronoi vertex (1,1),
so every reconstructed vertex has coordinates of magnitude at most 5 and all
(at most 3) clipped cells fit inside the ball of radius 11; their raw areas
sum to at most 3·121π < 40 000 = the boundary's area: even three times the
sum stays below the boundary's area, a shortfall far beyond any numerical
tolerance. -/
theorem cwv_sum_undercovers_distant_boundary :
    ((compute_weighted_voronoi (fun _ => vor3) (polygonSet bigSquare)
        [((0 : ℝ), (0 : ℝ)), (2, 0), (0, 2)] []).map (fun cr => cr.area_raw)).sum
      < (volume (polygonSet bigSquare)).toReal
    ∧ 3 * ((compute_weighted_voronoi (fun _ => vor3) (polygonSet bigSquare)
        [((0 : ℝ), (0 : ℝ)), (2, 0), (0, 2)] []).map (fun cr => cr.area_raw)).sum
      < (volume (polygonSet bigSquare)).toReal := by
  have hrad : vfRadius vor3 = 4 := by
    norm_num [vfRadius, vor3, max_def, min_def]
  have hva : ∀ w ∈ (voronoi_finite_polygons_2d vor3).2, |w.1| + |w.2| ≤ 10 := by
    intro w hw
    have hb := vf_vertex_bound vor3 1 zero_le_one
      (by
        intro w hw
        rw [show vor3.vertices = [(1, 1)] from rfl] at hw
        rw [List.mem_singleton.mp hw]
        norm_num) w hw
    rw [hrad] at hb
    have := hb.1
    have := hb.2
    norm_num at *
    linarith
  have hcount : (cwvCells vor3 (polygonSet bigSquare)
      [((0 : ℝ), (0 : ℝ)), (2, 0), (0, 2)] []).length ≤ 3 := by
    rw [cwvCells]
    refine (List.length_filterMap_le _ _).trans ?_
    rw [List.enum_length]
    exact (vf_regions_length vor3).trans (by norm_num [vor3])
  rw [compute_weighted_voronoi, if_neg (by norm_num)]
  show ((cwvCells vor3 (polygonSet bigSquare)
        [((0 : ℝ), (0 : ℝ)), (2, 0), (0, 2)] []).map (fun cr => cr.area_raw)).sum
      < (volume (polygonSet bigSquare)).toReal
    ∧ 3 * ((cwvCells vor3 (polygonSet bigSquare)
        [((0 : ℝ), (0 : ℝ)), (2, 0), (0, 2)] []).map (fun cr => cr.area_raw)).sum
      < (volume (polygonSet bigSquare)).toReal
  have hA := cwvCells_area_raw_le vor3 (polygonSet bigSquare)
    [((0 : ℝ), (0 : ℝ)), (2, 0), (0, 2)] [] 10 hva
  have hsum := List.sum_le_card_nsmul
    ((cwvCells vor3 (polygonSet bigSquare)
      [((0 : ℝ), (0 : ℝ)), (2, 0), (0, 2)] []).map (fun cr => cr.area_raw))
    ((volume (Metric.closedBall (0 : Pt) 10)).toReal)
    (by
      intro x hx
      obtain ⟨cr, hcr, rfl⟩ := List.mem_map.mp hx
      exact hA cr hcr)
  rw [List.length_map] at hsum
  have hv1pos : 0 < (volume (Metric.ball (0 : Pt) 1)).toReal :=
    ENNReal.toReal_pos (Metric.measure_ball_pos volume 0 one_pos).ne'
      measure_ball_lt_top.ne
  have hsmall : (volume (Metric.closedBall (0 : Pt) 10)).toReal
      ≤ 121 * (volume (Metric.ball (0 : Pt) 1)).toReal := by
    have hsub : Metric.closedBall (0 : Pt) 10 ⊆ Metric.ball (0 : Pt) 11 :=
      Metric.closedBall_subset_ball (by norm_num)
    have hscale : volume (Metric.ball (0 : Pt) 11)
        = ENNReal.ofReal (11 ^ 2) * volume (Metric.ball (0 : Pt) 1) := by
      have := Measure.addHaar_ball (volume : Measure Pt) 0
        (show (0 : ℝ) ≤ 11 by norm_num)
      rwa [finrank_euclideanSpace_fin] at this
    refine (ENNReal.toReal_mono ?_ (measure_mono hsub)).trans ?_
    · exact measure_ball_lt_top.ne
    · rw [hscale, ENNReal.toReal_mul, ENNReal.toReal_ofReal (by norm_num)]
      norm_num
  have hbig : 10000 * (volume (Metric.ball (0 : Pt) 1)).toReal
      ≤ (volume (polygonSet bigSquare)).toReal := by
    have hscale : volume (Metric.ball (0 : Pt) 100)
        = ENNReal.ofReal (100 ^ 2) * volume (Metric.ball (0 : Pt) 1) := by
      have := Measure.addHaar_ball (volume : Measure Pt) 0
        (show (0 : ℝ) ≤ 100 by norm_num)
      rwa [finrank_euclideanSpace_fin] at this
    have hmono := ENNReal.toReal_mono (polygonSet_volume_ne_top bigSquare)
      (measure_mono ball_subset_polygonSet_bigSquare)
    rw [hscale, ENNReal.toReal_mul, ENNReal.toReal_ofReal (by norm_num)] at hmono
    calc 10000 * (volume (Metric.ball (0 : Pt) 1)).toReal
        = (100 : ℝ) ^ 2 * (volume (Metric.ball (0 : Pt) 1)).toReal := by norm_num
      _ ≤ _ := hmono
  have hle : ((cwvCells vor3 (polygonSet bigSquare)
      [((0 : ℝ), (0 : ℝ)), (2, 0), (0, 2)] []).map (fun cr => cr.area_raw)).sum
      ≤ 363 * (volume (Metric.ball (0 : Pt) 1)).toReal := by
    refine hsum.trans ?_
    rw [nsmul_eq_mul]
    calc ((cwvCells vor3 (polygonSet bigSquare)
          [((0 : ℝ), (0 : ℝ)), (2, 0), (0, 2)] []).length : ℝ)
          * (volume (Metric.closedBall (0 : Pt) 10)).toReal
        ≤ 3 * (121 * (volume (Metric.ball (0 : Pt) 1)).toReal) := by
          refine mul_le_mul ?_ hsmall ENNReal.toReal_nonneg (by norm_num)
          exact_mod_cast hcount
      _ = 363 * (volume (Metric.ball (0 : Pt) 1)).toReal := by ring
  exact ⟨by linarith [hle, hbig, hv1pos], by linarith [hle, hbig, hv1pos]⟩

/-- C2 (amended): the clipped cells tile the part of the boundary the
reconstruction reaches: whenever the returned clipped cell polygons are
pairwise almost-disjoint (true Voronoi cells overlap only in their null
boundaries), the raw areas sum exactly to the area of the union of the
returned clipped cells — a subset of the boundary — rather than to the full
boundary area, which the finitely-extended cells need not cover. -/
theorem cwv_raw_areas_tile_covered_part (voronoiOf : List V2 → VorDiagram)
    (B : Set Pt) (sites : List V2) (zones : List ZoneM)
    (h3 : 3 ≤ sites.length) (hB : MeasurableSet B) (hfin : volume B ≠ ⊤)
    (hdisj : (compute_weighted_voronoi voronoiOf B sites zones).Pairwise
      (fun r r' => volume (r.polygon ∩ r'.polygon) = 0)) :
    ((compute_weighted_voronoi voronoiOf B sites zones).map
        (fun cr => cr.area_raw)).sum
      = (volume (⋃ r ∈ compute_weighted_voronoi voronoiOf B sites zones,
          r.polygon)).toReal
    ∧ (⋃ r ∈ compute_weighted_voronoi voronoiOf B sites zones, r.polygon) ⊆ B := by
  have hguard : ¬ sites.length < 3 := by omega
  have hspec : ∀ cr ∈ compute_weighted_voronoi voronoiOf B sites zones,
      ∃ verts : List V2,
        (∀ v ∈ verts, v ∈ (voronoi_finite_polygons_2d (voronoiOf sites)).2)
        ∧ cr.polygon = polygonSet verts ∩ B
        ∧ cr.area_raw = (volume cr.polygon).toReal := by
    intro cr hcr
    rw [compute_weighted_voronoi, if_neg hguard] at hcr
    exact cwvCells_mem_spec (voronoiOf sites) B sites zones cr hcr
  constructor
  · have harea : ∀ cr ∈ compute_weighted_voronoi voronoiOf B sites zones,
        cr.area_raw = (volume cr.polygon).toReal := by
      intro cr hcr
      obtain ⟨verts, -, -, h⟩ := hspec cr hcr
      exact h
    have hmap : ((compute_weighted_voronoi voronoiOf B sites zones).map
          (fun cr => cr.area_raw)).sum
        = (((compute_weighted_voronoi voronoiOf B sites zones).map
            (fun cr => cr.polygon)).map (fun s => (volume s).toReal)).sum := by
      rw [List.map_map]
      refine congrArg List.sum (List.map_congr_left ?_)
      intro cr hcr
      exact harea cr hcr
    rw [hmap, sum_toReal_volume_list]
    · refine congrArg ENNReal.toReal (congrArg volume ?_)
      ext p
      simp only [Set.mem_iUnion, List.mem_map]
      constructor
      · rintro ⟨s, ⟨⟨cr, hcr, rfl⟩, hp⟩⟩
        exact ⟨cr, ⟨hcr, hp⟩⟩
      · rintro ⟨cr, ⟨hcr, hp⟩⟩
        exact ⟨cr.polygon, ⟨⟨cr, hcr, rfl⟩, hp⟩⟩
    · intro s hs
      obtain ⟨cr, hcr, rfl⟩ := List.mem_map.mp hs
      obtain ⟨verts, -, hpoly, -⟩ := hspec cr hcr
      rw [hpoly]
      exact (polygonSet_measurableSet verts).inter hB
    · intro s hs
      obtain ⟨cr, hcr, rfl⟩ := List.mem_map.mp hs
      obtain ⟨verts, -, hpoly, -⟩ := hspec cr hcr
      rw [hpoly]
      exact ((measure_mono Set.inter_subset_right).trans_lt
        (lt_top_iff_ne_top.mpr hfin)).ne
    · exact List.Pairwise.map _ (fun a b h => h) hdisj
  · refine Set.iUnion₂_subset ?_
    intro cr hcr
    obtain ⟨verts, -, hpoly, -⟩ := hspec cr hcr
    rw [hpoly]
    exact Set.inter_subset_right

/-- Witness for `cwv_raw_areas_tile_covered_part` at a three-site input whose
diagram is empty (so there are no cells and both sides are 0). -/
theorem cwv_raw_areas_tile_covered_part_witness :
    (3 ≤ ([((0 : ℝ), (0 : ℝ)), (1, 0), (0, 1)] : List V2).length
      ∧ MeasurableSet (Metric.ball (0 : Pt) 1)
      ∧ volume (Metric.ball (0 : Pt) 1) ≠ ⊤)
    ∧ (((compute_weighted_voronoi (fun _ => vorEmpty) (Metric.ball (0 : Pt) 1)
          [((0 : ℝ), (0 : ℝ)), (1, 0), (0, 1)] []).map
          (fun cr => cr.area_raw)).sum
        = (volume (⋃ r ∈ compute_weighted_voronoi (fun _ => vorEmpty)
            (Metric.ball (0 : Pt) 1) [((0 : ℝ), (0 : ℝ)), (1, 0), (0, 1)] [],
            r.polygon)).toReal
      ∧ (⋃ r ∈ compute_weighted_voronoi (fun _ => vorEmpty)
            (Metric.ball (0 : Pt) 1) [((0 : ℝ), (0 : ℝ)), (1, 0), (0, 1)] [],
            r.polygon) ⊆ Metric.ball (0 : Pt) 1) :=
  ⟨⟨by simp, measurableSet_ball, measure_ball_lt_top.ne⟩,
   cwv_raw_areas_tile_covered_part (fun _ => vorEmpty) (Metric.ball (0 : Pt) 1)
     [((0 : ℝ), (0 : ℝ)), (1, 0), (0, 1)] [] (by simp) measurableSet_ball
     measure_ball_lt_top.ne
     (by
       have h : compute_weighted_voronoi (fun _ => vorEmpty)
           (Metric.ball (0 : Pt) 1) [((0 : ℝ), (0 : ℝ)), (1, 0), (0, 1)] []
           = [] := rfl
       rw [h]
       exact List.Pairwise.nil)⟩

/-! ## Claim C5 — weighted-area bounds -/

/-- C5 (counterexample): with two identical full-coverage zones of weight 1 on
a cell of positive area, the weighted area is twice the raw area, exceeding
raw area × maximum zone weight (= raw area × 1): overlapping zones are summed
without de-duplication (`vornoi5.py` lines 85–88). -/
theorem weightedArea_can_exceed_max_bound :
    ¬ (weightedArea (Metric.ball (0 : Pt) 1)
        [⟨Metric.ball (0 : Pt) 1, 1⟩, ⟨Metric.ball (0 : Pt) 1, 1⟩]
      ≤ (volume (Metric.ball (0 : Pt) 1)).toReal * 1) := by
  intro h
  rw [weightedArea] at h
  simp only [List.map_cons, List.map_nil, List.sum_cons, List.sum_nil,
    Set.inter_self, mul_one, add_zero] at h
  have ha : 0 < (volume (Metric.ball (0 : Pt) 1)).toReal :=
    ENNReal.toReal_pos (Metric.measure_ball_pos volume 0 one_pos).ne'
      measure_ball_lt_top.ne
  linarith

/-- C5 (amended): the bound `weighted ≤ raw × max weight` holds whenever the
supplied zones overlap the cell pairwise area-disjointly (the spec's own side
condition: "assuming zones cover the cell without overlap double-counting");
and unconditionally the weighted area is 0 when no zone overlaps the cell. -/
theorem weightedArea_bounds (cell : Set Pt) (zones : List ZoneM) (M : ℝ)
    (hc : MeasurableSet cell) (hfin : volume cell ≠ ⊤)
    (hzm : ∀ z ∈ zones, MeasurableSet z.region)
    (hwM : ∀ z ∈ zones, z.weight ≤ M) (hM : 0 ≤ M)
    (hdisj : zones.Pairwise
      (fun z1 z2 => volume (cell ∩ z1.region ∩ z2.region) = 0)) :
    weightedArea cell zones ≤ (volume cell).toReal * M
    ∧ ((∀ z ∈ zones, cell ∩ z.region = ∅) → weightedArea cell zones = 0) := by
  constructor
  · rw [weightedArea, list_map_sum_eq_fin_sum]
    have hstep1 : ∀ i : Fin zones.length,
        (volume (cell ∩ (zones.get i).region)).toReal * (zones.get i).weight
          ≤ (volume (cell ∩ (zones.get i).region)).toReal * M :=
      fun i => mul_le_mul_of_nonneg_left (hwM _ (zones.get_mem i.1 i.2))
        ENNReal.toReal_nonneg
    refine le_trans (Finset.sum_le_sum (fun i _ => hstep1 i)) ?_
    rw [← Finset.sum_mul]
    refine mul_le_mul_of_nonneg_right ?_ hM
    have hpair := List.pairwise_iff_get.mp hdisj
    have hd : (Finset.univ : Finset (Fin zones.length)).toSet.Pairwise
        (AEDisjoint volume on fun i => cell ∩ (zones.get i).region) := by
      intro i _ j _ hij
      rcases lt_or_gt_of_ne hij with hlt | hgt
      · refine measure_mono_null ?_ (hpair i j hlt)
        intro p hp
        exact ⟨⟨hp.1.1, hp.1.2⟩, hp.2.2⟩
      · refine measure_mono_null ?_ (hpair j i hgt)
        intro p hp
        exact ⟨⟨hp.1.1, hp.2.2⟩, hp.1.2⟩
    have hEN : ∑ i : Fin zones.length, volume (cell ∩ (zones.get i).region)
        ≤ volume cell := by
      rw [← measure_biUnion_finset₀ hd
        (fun i _ => (hc.inter (hzm _ (zones.get_mem i.1 i.2))).nullMeasurableSet)]
      exact measure_mono (Set.iUnion₂_subset fun i _ => Set.inter_subset_left)
    have hfin'' : ∀ i ∈ (Finset.univ : Finset (Fin zones.length)),
        volume (cell ∩ (zones.get i).region) ≠ ⊤ :=
      fun i _ =>
        ((measure_mono Set.inter_subset_left).trans_lt (lt_top_iff_ne_top.mpr hfin)).ne
    calc ∑ i : Fin zones.length, (volume (cell ∩ (zones.get i).region)).toReal
        = (∑ i : Fin zones.length, volume (cell ∩ (zones.get i).region)).toReal :=
          (ENNReal.toReal_sum hfin'').symm
      _ ≤ (volume cell).toReal := ENNReal.toReal_mono hfin hEN
  · intro hempty
    rw [weightedArea]
    refine List.sum_eq_zero ?_
    intro x hx
    obtain ⟨z, hz, rfl⟩ := List.mem_map.mp hx
    rw [hempty z hz]
    simp

/-- Witness for `weightedArea_bounds`: the unit ball with one full-coverage
zone of weight 1. -/
theorem weightedArea_bounds_witness :
    MeasurableSet (Metric.ball (0 : Pt) 1)
    ∧ (weightedArea (Metric.ball (0 : Pt) 1) [⟨Metric.ball (0 : Pt) 1, 1⟩]
        ≤ (volume (Metric.ball (0 : Pt) 1)).toReal * 1
      ∧ ((∀ z ∈ [(⟨Metric.ball (0 : Pt) 1, 1⟩ : ZoneM)],
            Metric.ball (0 : Pt) 1 ∩ z.region = ∅) →
          weightedArea (Metric.ball (0 : Pt) 1) [⟨Metric.ball (0 : Pt) 1, 1⟩] = 0)) :=
  ⟨measurableSet_ball,
   weightedArea_bounds (Metric.ball (0 : Pt) 1) [⟨Metric.ball (0 : Pt) 1, 1⟩] 1
     measurableSet_ball measure_ball_lt_top.ne
     (by intro z hz; rw [List.mem_singleton] at hz; rw [hz]; exact measurableSet_ball)
     (by intro z hz; rw [List.mem_singleton] at hz; rw [hz])
     (by norm_num) (List.pairwise_singleton _ _)⟩

end LTD
